import Mathlib

/-!
Shallow embedding of the `textual_textarea` text-editing core.

* `Buffer` and its operations embed `textual_textarea/_buffer.py`: the buffer
  is the Python list `self._lines`, a list of lines, each line a Python list of
  single characters.
* `TextArea`, the cursor validators and the compound cursor actions embed the
  cursor model of `textual_textarea/_textarea.py`.  The reactive fields
  `cursor_x` / `cursor_y` are modelled as `Int` fields: every assignment to a
  reactive field goes through the corresponding `validate_cursor_*` function,
  exactly as the reactive framework does, and (because of the constant-argument
  guard in `validate_cursor_x`) the stored column can in fact become negative.
* `get_segment_index_from_cell_index` embeds the cell/segment translator
  `_get_segment_index_from_cell_index`; a styled run (`rich` `Segment`) is
  abstracted to its `cell_length`, the only attribute the function reads.

Positions handed to the Buffer mutation operations are modelled as natural
numbers: every claim about mutations quantifies over in-range (hence
non-negative) positions.  `get_line_length` keeps the full Python `int`
indexing semantics (negative indices address lines from the end) because it is
applied to the raw reactive row value.
-/

namespace TextualTextarea

/-- The value of `os.linesep` on the POSIX platform the program runs on: a single newline. -/
def linesep : List Char := ['\n']

/-- The buffer's `self._lines`: a list of lines, each a list of characters. -/
abbrev Buffer := List (List Char)

namespace Buffer

/-- Python `Buffer.__init__`: `self._lines = [[]]` — one empty line. -/
def init : Buffer := [[]]

/-- The `max_y` property: `len(self._lines)`. -/
def max_y (b : Buffer) : Nat := b.length

/-- Python `Buffer.get_line_length`: `len(self._lines[y])` with the `IndexError`
caught and turned into `None`.  Python indexing accepts negative `y`
(addressing from the end); `IndexError` is raised exactly when
`y >= len` or `y < -len`. -/
def get_line_length (b : Buffer) (y : Int) : Option Nat :=
  if 0 ≤ y then
    if y < (b.length : Int) then some (b.getD y.toNat []).length else none
  else
    if 0 ≤ (b.length : Int) + y then
      some (b.getD ((b.length : Int) + y).toNat []).length
    else none

/-- Python `Buffer.write`: `os.linesep.join("".join(line) for line in self._lines)`. -/
def write : Buffer → List Char
  | [] => []
  | [line] => line
  | line :: next :: rest => line ++ linesep ++ write (next :: rest)

/-- Python `Buffer.insert_linebreak(position)` for an `Offset` `(x, y)`:
`line = self._lines[y][x:]; del self._lines[y][x:];
self._lines.insert(y + 1, line)`.
`self._lines[y]` raises `IndexError` (modelled as `none`) when `y` is out of
range; the slice `[x:]` is total (`x` past the end yields the empty slice). -/
def insert_linebreak : Buffer → Nat → Nat → Option Buffer
  | [], _, _ => none
  | line :: rest, x, 0 => some (line.take x :: line.drop x :: rest)
  | line :: rest, x, y + 1 => (insert_linebreak rest x y).map (line :: ·)

/-- One iteration of the `insert_text` loop body: Python
`list.insert(x, char)` — inserts before index `x`, clamping `x` to the list
length (an `x` past the end appends). -/
def pyListInsert (line : List Char) (x : Nat) (c : Char) : List Char :=
  line.take x ++ c :: line.drop x

/-- The `insert_text` loop `for char in text: self._lines[y].insert(x, char)`
acting on the addressed line: every character is inserted at the same fixed
column `x`. -/
def insertChars (line : List Char) (x : Nat) : List Char → List Char
  | [] => line
  | c :: rest => insertChars (pyListInsert line x c) x rest

/-- Replace line `y` by `f` applied to it, `none` when `y` is out of range
(the Python loop's `self._lines[y]` raises `IndexError` there). -/
def setLine : Buffer → Nat → (List Char → List Char) → Option Buffer
  | [], _, _ => none
  | line :: rest, 0, f => some (f line :: rest)
  | line :: rest, y + 1, f => (setLine rest y f).map (line :: ·)

/-- Python `Buffer.insert_text(position, text)`: if `text == os.linesep` it delegates
to `insert_linebreak`; otherwise it runs the per-character insertion loop on
line `y`.  An empty `text` runs the loop zero times, so it never touches
`self._lines[y]` and succeeds even for an out-of-range `y`. -/
def insert_text (b : Buffer) (x y : Nat) (text : List Char) : Option Buffer :=
  if text = linesep then insert_linebreak b x y
  else if text = [] then some b
  else setLine b y (fun line => insertChars line x text)

/-- Python `Buffer.delete_text(position)`: `del self._lines[y][x]` — removes the one
character at column `x` of line `y`; `IndexError` (out-of-range `y` or `x`)
is modelled as `none`. -/
def delete_text : Buffer → Nat → Nat → Option Buffer
  | [], _, _ => none
  | line :: rest, x, 0 =>
    if x < line.length then some ((line.take x ++ line.drop (x + 1)) :: rest)
    else none
  | line :: rest, x, y + 1 => (delete_text rest x y).map (line :: ·)

end Buffer

/-- A buffer mutation operation, addressed by an `(x, y)` position. -/
inductive BufOp where
  | ins (x y : Nat) (text : List Char)
  | del (x y : Nat)
  | brk (x y : Nat)

/-- Apply one operation to the buffer. -/
def applyOp (b : Buffer) : BufOp → Option Buffer
  | .ins x y text => b.insert_text x y text
  | .del x y => b.delete_text x y
  | .brk x y => b.insert_linebreak x y

/-- Apply a sequence of operations left to right; a failing operation
(Python `IndexError`) aborts the sequence. -/
def applyOps (b : Buffer) : List BufOp → Option Buffer
  | [] => some b
  | op :: ops => (applyOp b op).bind (fun b1 => applyOps b1 ops)

/-- Python `_is_negative(number)`: `number < 0`. -/
def is_negative (number : Int) : Bool := number < 0

/-- The cell/segment translator's accumulator loop
(`for segment_index, segment in enumerate(line)`), carrying the running
total `length` and the current `segment_index`.  After `length += w`, the
source tests `cell_index in range(length - cell_length, length)`; with the
pre-update accumulator value this is `length ≤ cell_index < length + w`. -/
def segIndexGo (cell_index : Nat) : Nat → Nat → List Nat → Option Nat
  | _, _, [] => none
  | length, segment_index, w :: rest =>
    if length ≤ cell_index ∧ cell_index < length + w then some segment_index
    else segIndexGo cell_index (length + w) (segment_index + 1) rest

/-- Python `_get_segment_index_from_cell_index(cell_index, line)`: walks the styled
runs of `line` accumulating cell widths and returns the index of the run whose
cell interval contains `cell_index`, or `none` past the total width.  A run is
abstracted to its `cell_length` (the only attribute read). -/
def get_segment_index_from_cell_index (cell_index : Nat) (line : List Nat) :
    Option Nat :=
  segIndexGo cell_index 0 0 line

/-- The `TextArea` state relevant to the cursor model: the owned `Buffer` and
the two reactive cursor coordinates. -/
@[ext]
structure TextArea where
  buffer : Buffer
  cursor_x : Int
  cursor_y : Int
  deriving DecidableEq

namespace TextArea

/-- Python `TextArea.validate_cursor_x(cursor_x)`.  The negative guard tests the
constant `0` — `if _is_negative(0)` in the source — so it never fires; the
line length of the *current* row (`self.cursor_y`) caps the column when that
row exists. -/
def validate_cursor_x (ta : TextArea) (cursor_x : Int) : Int :=
  if is_negative 0 then 0
  else
    match ta.buffer.get_line_length ta.cursor_y with
    | none => cursor_x
    | some line_length =>
      if cursor_x > (line_length : Int) then line_length else cursor_x

/-- Python `TextArea.validate_cursor_y(cursor_y)`: negative rows clamp to `0`, rows
past `max_y - 1` clamp to `max_y - 1`. -/
def validate_cursor_y (ta : TextArea) (cursor_y : Int) : Int :=
  if is_negative cursor_y then 0
  else
    let last_line : Int := (ta.buffer.max_y : Int) - 1
    if cursor_y > last_line then last_line else cursor_y

/-- Assignment to the reactive `cursor_x` field: the framework routes the
value through `validate_cursor_x` before storing it. -/
def set_cursor_x (ta : TextArea) (x : Int) : TextArea :=
  { ta with cursor_x := ta.validate_cursor_x x }

/-- Assignment to the reactive `cursor_y` field: the framework routes the
value through `validate_cursor_y` before storing it. -/
def set_cursor_y (ta : TextArea) (y : Int) : TextArea :=
  { ta with cursor_y := ta.validate_cursor_y y }

/-- Python `action_cursor_down`: `self.cursor_y += 1` (validated on assignment). -/
def action_cursor_down (ta : TextArea) : TextArea :=
  ta.set_cursor_y (ta.cursor_y + 1)

/-- Python `action_insert_linebreak_at_cursor`: split the buffer at the cursor
offset, move the cursor down one row, reset the column to 0, then regenerate
the rendering state.  `_update_lines` only rebuilds the derived styled rows
via the external highlighter and touches neither the buffer nor the cursor,
so it does not appear in the state transition.  The cursor coordinates are
read as natural numbers (`toNat`); the theorems below only invoke this on
states with in-range, hence non-negative, cursors. -/
def action_insert_linebreak_at_cursor (ta : TextArea) : Option TextArea :=
  (ta.buffer.insert_linebreak ta.cursor_x.toNat ta.cursor_y.toNat).map
    (fun b =>
      let ta1 : TextArea := { ta with buffer := b }
      (ta1.action_cursor_down).set_cursor_x 0)

/-- Python `TextArea.insert_text_at_cursor(text)`: delegate to the buffer, regenerate
rendering state (state-irrelevant, see above), then `self.cursor_x +=
len(text)` — validated against the already-mutated buffer. -/
def insert_text_at_cursor (ta : TextArea) (text : List Char) :
    Option TextArea :=
  (ta.buffer.insert_text ta.cursor_x.toNat ta.cursor_y.toNat text).map
    (fun b =>
      let ta1 : TextArea := { ta with buffer := b }
      ta1.set_cursor_x (ta.cursor_x + text.length))

end TextArea

/-! ### Auxiliary notions used to state the claims -/

/-- Splitting a character list at the separator character, the inverse notion
used by the claims to count the lines of a serialized buffer.  Always returns
at least one piece. -/
def splitNl : List Char → List (List Char)
  | [] => [[]]
  | c :: rest =>
    if c = '\n' then [] :: splitNl rest
    else (c :: (splitNl rest).headD []) :: (splitNl rest).tail

/-- The character offset into `write b` that corresponds to the buffer
position `(x, y)`: every line before row `y` contributes its length plus the
separator's length, then `x` characters into row `y`. -/
def charOffset : Buffer → Nat → Nat → Nat
  | _, x, 0 => x
  | [], x, _ + 1 => x
  | line :: rest, x, y + 1 =>
    line.length + linesep.length + charOffset rest x y

/-- Iterating `delete_text`: `n` successive calls at the same position, the claims'
"one delete per character of the inserted text". -/
def deleteN : Nat → Buffer → Nat → Nat → Option Buffer
  | 0, b, _, _ => some b
  | n + 1, b, x, y => (b.delete_text x y).bind (fun b1 => deleteN n b1 x y)

/-! ### Helper lemmas -/

theorem set_getD_self : ∀ (l : List (List Char)) (n : Nat) (d : List Char),
    n < l.length → l.set n (l.getD n d) = l
  | _ :: _, 0, _, _ => rfl
  | a :: l, n + 1, d, h => by
    simpa using set_getD_self l n d (by simpa using h)

theorem getD_append_right_len (u w : List (List Char)) (n : Nat)
    (d : List Char) (h : u.length ≤ n) :
    (u ++ w).getD n d = w.getD (n - u.length) d := by
  simp [List.getD, List.getElem?_append_right h]

theorem getD_set_self (l : List (List Char)) (n : Nat) (a d : List Char)
    (h : n < l.length) : (l.set n a).getD n d = a := by
  simp [List.getD, List.getElem?_set_self, h]

theorem getD_set_ne (l : List (List Char)) (n m : Nat) (a d : List Char)
    (h : n ≠ m) : (l.set n a).getD m d = l.getD m d := by
  simp [List.getD, List.getElem?_set_ne h]

namespace Buffer

theorem insert_linebreak_eq : ∀ (b : Buffer) (x y : Nat), y < b.length →
    insert_linebreak b x y =
      some (b.take y ++ (b.getD y []).take x :: (b.getD y []).drop x ::
        b.drop (y + 1))
  | line :: rest, x, 0, _ => by simp [insert_linebreak, List.getD]
  | line :: rest, x, y + 1, h => by
    have ih := insert_linebreak_eq rest x y (by simpa using h)
    simp [insert_linebreak, ih, List.getD]

theorem length_insert_linebreak : ∀ (b : Buffer) (x y : Nat) (b' : Buffer),
    insert_linebreak b x y = some b' → b'.length = b.length + 1
  | [], x, y, b', h => by simp [insert_linebreak] at h
  | line :: rest, x, 0, b', h => by
    simp [insert_linebreak] at h
    subst h; simp
  | line :: rest, x, y + 1, b', h => by
    simp [insert_linebreak] at h
    obtain ⟨b1, h1, rfl⟩ := h
    have := length_insert_linebreak rest x y b1 h1
    simp [this]

theorem setLine_eq : ∀ (b : Buffer) (y : Nat) (f : List Char → List Char),
    y < b.length → setLine b y f = some (b.set y (f (b.getD y [])))
  | line :: rest, 0, f, _ => by simp [setLine, List.getD]
  | line :: rest, y + 1, f, h => by
    have ih := setLine_eq rest y f (by simpa using h)
    simp [setLine, ih, List.getD]

theorem length_setLine : ∀ (b : Buffer) (y : Nat) (f : List Char → List Char)
    (b' : Buffer), setLine b y f = some b' → b'.length = b.length
  | [], y, f, b', h => by simp [setLine] at h
  | line :: rest, 0, f, b', h => by
    simp [setLine] at h
    subst h; simp
  | line :: rest, y + 1, f, b', h => by
    simp [setLine] at h
    obtain ⟨b1, h1, rfl⟩ := h
    have := length_setLine rest y f b1 h1
    simp [this]

theorem insertChars_eq : ∀ (t : List Char) (line : List Char) (x : Nat),
    x ≤ line.length →
    insertChars line x t = line.take x ++ t.reverse ++ line.drop x
  | [], line, x, _ => by simp [insertChars]
  | c :: rest, line, x, h => by
    have hlen : (line.take x).length = x := by simp [h]
    have ih := insertChars_eq rest (pyListInsert line x c) x
      (by simp [pyListInsert]; omega)
    rw [insertChars, ih]
    simp only [pyListInsert, List.reverse_cons]
    rw [List.append_assoc, List.take_left' hlen, List.drop_left' hlen]
    simp

theorem insert_text_eq (b : Buffer) (x y : Nat) (t : List Char)
    (hy : y < b.length) (hx : x ≤ (b.getD y []).length) (ht : t ≠ linesep) :
    insert_text b x y t =
      some (b.set y
        ((b.getD y []).take x ++ t.reverse ++ (b.getD y []).drop x)) := by
  unfold insert_text
  rw [if_neg ht]
  by_cases hnil : t = []
  · subst hnil
    rw [if_pos rfl, List.reverse_nil, List.append_nil, List.take_append_drop,
      set_getD_self _ _ _ hy]
  · rw [if_neg hnil, setLine_eq b y _ hy, insertChars_eq t _ x hx]

theorem length_delete_text : ∀ (b : Buffer) (x y : Nat) (b' : Buffer),
    delete_text b x y = some b' → b'.length = b.length
  | [], x, y, b', h => by simp [delete_text] at h
  | line :: rest, x, 0, b', h => by
    simp [delete_text] at h
    obtain ⟨-, h⟩ := h
    subst h; simp
  | line :: rest, x, y + 1, b', h => by
    simp [delete_text] at h
    obtain ⟨b1, h1, rfl⟩ := h
    have := length_delete_text rest x y b1 h1
    simp [this]

theorem delete_text_eq : ∀ (b : Buffer) (x y : Nat), y < b.length →
    x < (b.getD y []).length →
    delete_text b x y =
      some (b.set y ((b.getD y []).take x ++ (b.getD y []).drop (x + 1)))
  | line :: rest, x, 0, _, hx => by
    simp only [List.getD] at hx ⊢
    simp [delete_text, hx] at hx ⊢
    exact hx
  | line :: rest, x, y + 1, hy, hx => by
    have ih := delete_text_eq rest x y (by simpa using hy)
      (by simpa [List.getD] using hx)
    simp [delete_text, ih, List.getD]

theorem write_cons_of_ne_nil (line : List Char) (rest : Buffer)
    (h : rest ≠ []) :
    write (line :: rest) = line ++ linesep ++ write rest := by
  cases rest with
  | nil => exact absurd rfl h
  | cons m r => rfl

theorem length_pos_of_set (b : Buffer) (y : Nat) (v : List Char)
    (h : y < b.length) : b.set y v ≠ [] := by
  intro hnil
  have := List.length_set b y v
  rw [hnil] at this
  simp at this
  omega

theorem take_append_of_le (u w : List Char) (x : Nat) (h : x ≤ u.length) :
    (u ++ w).take x = u.take x := by
  rw [List.take_append_eq_append_take, (by omega : x - u.length = 0)]
  simp

theorem drop_append_of_le (u w : List Char) (x : Nat) (h : x ≤ u.length) :
    (u ++ w).drop x = u.drop x ++ w := by
  rw [List.drop_append_eq_append_drop, (by omega : x - u.length = 0)]
  simp

theorem take_app_app (u v w : List Char) (k : Nat) :
    (u ++ v ++ w).take (u.length + v.length + k) = u ++ v ++ w.take k := by
  have h : u.length + v.length + k = (u ++ v).length + k := by simp
  rw [h, List.take_append]

theorem drop_app_app (u v w : List Char) (k : Nat) :
    (u ++ v ++ w).drop (u.length + v.length + k) = w.drop k := by
  have h : u.length + v.length + k = (u ++ v).length + k := by simp
  rw [h, List.drop_append]

/-- Splicing a segment `s` into line `y` at column `x` splices it into the
serialization at character offset `charOffset b x y`. -/
theorem write_splice : ∀ (y : Nat) (b : Buffer) (x : Nat) (s : List Char),
    y < b.length → x ≤ (b.getD y []).length →
    write (b.set y ((b.getD y []).take x ++ s ++ (b.getD y []).drop x)) =
      (write b).take (charOffset b x y) ++ s ++
        (write b).drop (charOffset b x y)
  | 0, line :: rest, x, s, _, hx => by
    simp only [List.getD_cons_zero] at hx ⊢
    cases rest with
    | nil =>
      show write [line.take x ++ s ++ line.drop x] =
        (write [line]).take x ++ s ++ (write [line]).drop x
      simp only [write]
    | cons m r =>
      have h1 : write ((line.take x ++ s ++ line.drop x) :: m :: r) =
          (line.take x ++ s ++ line.drop x) ++ linesep ++ write (m :: r) :=
        write_cons_of_ne_nil _ _ (by simp)
      have h2 : write (line :: m :: r) = line ++ (linesep ++ write (m :: r)) := by
        rw [write_cons_of_ne_nil _ _ (by simp), List.append_assoc]
      show write ((line.take x ++ s ++ line.drop x) :: m :: r) =
        (write (line :: m :: r)).take x ++ s ++
          (write (line :: m :: r)).drop x
      rw [h1, h2, take_append_of_le _ _ _ hx, drop_append_of_le _ _ _ hx]
      simp [List.append_assoc]
  | y + 1, line :: rest, x, s, hy, hx => by
    have hy' : y < rest.length := by simpa using hy
    have hx' : x ≤ (rest.getD y []).length := by
      simpa [List.getD_cons_succ] using hx
    have hrest : rest ≠ [] := by
      intro h; rw [h] at hy'; simp at hy'
    have ih := write_splice y rest x s hy' hx'
    simp only [List.getD_cons_succ, List.set_cons_succ]
    have h1 : write (line ::
        rest.set y ((rest.getD y []).take x ++ s ++ (rest.getD y []).drop x)) =
        line ++ linesep ++ write
          (rest.set y ((rest.getD y []).take x ++ s ++ (rest.getD y []).drop x)) :=
      write_cons_of_ne_nil _ _ (length_pos_of_set rest y _ hy')
    have h2 : write (line :: rest) = line ++ linesep ++ write rest :=
      write_cons_of_ne_nil _ _ hrest
    have hco : charOffset (line :: rest) x (y + 1) =
        line.length + linesep.length + charOffset rest x y := rfl
    rw [h1, ih, h2, hco, take_app_app, drop_app_app]
    simp [List.append_assoc]

/-- Newline count of the serialization: one per separator between lines plus
the newlines stored inside the lines themselves. -/
theorem count_write : ∀ (b : Buffer), b ≠ [] →
    (write b).count '\n' =
      (b.map (fun l => l.count '\n')).sum + (b.length - 1)
  | [], h => absurd rfl h
  | [l], _ => by simp [write]
  | l :: m :: r, _ => by
    have ih := count_write (m :: r) (by simp)
    rw [write_cons_of_ne_nil _ _ (by simp)]
    simp only [List.count_append, ih, linesep, List.map_cons, List.sum_cons]
    simp [List.count_cons]
    omega

end Buffer

theorem splitNl_ne_nil : ∀ (l : List Char), splitNl l ≠ []
  | [] => by simp [splitNl]
  | c :: rest => by
    by_cases h : c = '\n' <;> simp [splitNl, h]

/-- Splitting at the separator yields one more piece than there are
separator characters. -/
theorem length_splitNl : ∀ (l : List Char),
    (splitNl l).length = l.count '\n' + 1
  | [] => by simp [splitNl]
  | c :: rest => by
    have ih := length_splitNl rest
    have hne := splitNl_ne_nil rest
    by_cases h : c = '\n'
    · simp [splitNl, h, ih, List.count_cons]
    · simp [splitNl, h, List.count_cons, List.length_tail]
      omega

/-- Iterated deletion at a fixed position peels a block off the addressed
line one character at a time, left end of the block first. -/
theorem deleteN_restore : ∀ (s : List Char) (b : Buffer) (x y : Nat)
    (u v : List Char), y < b.length → b.getD y [] = u ++ s ++ v →
    u.length = x → deleteN s.length b x y = some (b.set y (u ++ v))
  | [], b, x, y, u, v, hy, hline, _ => by
    rw [List.append_nil] at hline
    rw [List.length_nil, deleteN, ← hline, set_getD_self _ _ _ hy]
  | c :: s, b, x, y, u, v, hy, hline, hu => by
    have hx : x < (b.getD y []).length := by
      rw [hline]; simp; omega
    have htake : (b.getD y []).take x = u := by
      rw [hline, List.append_assoc]
      exact List.take_left' hu
    have hdrop : (b.getD y []).drop (x + 1) = s ++ v := by
      rw [hline, List.append_assoc, List.cons_append,
        List.drop_append_eq_append_drop,
        List.drop_of_length_le (by omega), hu,
        (by omega : x + 1 - x = 1)]
      simp
    simp only [List.length_cons, deleteN]
    rw [Buffer.delete_text_eq b x y hy hx, htake, hdrop]
    have hy1 : y < (b.set y (u ++ (s ++ v))).length := by simpa using hy
    have ih := deleteN_restore s (b.set y (u ++ (s ++ v))) x y u v hy1
      (by rw [getD_set_self b y (u ++ (s ++ v)) [] hy, List.append_assoc]) hu
    simp only [Option.some_bind]
    rw [ih, List.set_set]

/-- An `insert_text` away from the linebreak path preserves the line count. -/
theorem length_insert_text (b : Buffer) (x y : Nat) (t : List Char)
    (b' : Buffer) (ht : t ≠ linesep) (h : b.insert_text x y t = some b') :
    b'.length = b.length := by
  unfold Buffer.insert_text at h
  rw [if_neg ht] at h
  by_cases hnil : t = []
  · rw [if_pos hnil] at h
    cases h
    rfl
  · rw [if_neg hnil] at h
    exact Buffer.length_setLine b y _ b' h

/-- Every single operation keeps or grows the line count. -/
theorem length_applyOp (b : Buffer) (op : BufOp) (b' : Buffer)
    (h : applyOp b op = some b') : b.length ≤ b'.length := by
  cases op with
  | ins x y t =>
    simp only [applyOp] at h
    by_cases ht : t = linesep
    · unfold Buffer.insert_text at h
      rw [if_pos ht] at h
      have := Buffer.length_insert_linebreak b x y b' h
      omega
    · have := length_insert_text b x y t b' ht h
      omega
  | del x y =>
    simp only [applyOp] at h
    have := Buffer.length_delete_text b x y b' h
    omega
  | brk x y =>
    simp only [applyOp] at h
    have := Buffer.length_insert_linebreak b x y b' h
    omega

/-- The line count never decreases along a successful operation sequence. -/
theorem length_applyOps : ∀ (ops : List BufOp) (b b' : Buffer),
    applyOps b ops = some b' → b.length ≤ b'.length
  | [], b, b', h => by
    cases h
    exact Nat.le_refl _
  | op :: ops, b, b', h => by
    simp only [applyOps, Option.bind_eq_some] at h
    obtain ⟨b1, h1, h2⟩ := h
    exact Nat.le_trans (length_applyOp b op b1 h1)
      (length_applyOps ops b1 b' h2)

/-- Past the remaining total width the accumulator loop finds nothing. -/
theorem segIndexGo_none : ∀ (ws : List Nat) (acc j c : Nat),
    acc + ws.sum ≤ c → segIndexGo c acc j ws = none
  | [], _, _, _, _ => rfl
  | w :: rest, acc, j, c, h => by
    have hsum : acc + w + rest.sum ≤ c := by
      simp only [List.sum_cons] at h
      omega
    rw [segIndexGo, if_neg (by omega)]
    exact segIndexGo_none rest (acc + w) (j + 1) c hsum

/-- If the cell index falls in the `i`-th remaining run's interval (shifted
by the accumulator `acc`), the loop returns the `i`-th upcoming index. -/
theorem segIndexGo_some : ∀ (ws : List Nat) (i acc j c : Nat),
    i < ws.length → acc + (ws.take i).sum ≤ c →
    c < acc + (ws.take (i + 1)).sum → segIndexGo c acc j ws = some (j + i)
  | w :: rest, 0, acc, j, c, _, h1, h2 => by
    simp only [List.take_zero, List.sum_nil, Nat.add_zero] at h1
    simp only [List.take_succ_cons, List.take_zero, List.sum_cons,
      List.sum_nil, Nat.add_zero] at h2
    rw [segIndexGo, if_pos ⟨h1, h2⟩]
    simp
  | w :: rest, i + 1, acc, j, c, hi, h1, h2 => by
    simp only [List.take_succ_cons, List.sum_cons] at h1 h2
    rw [segIndexGo, if_neg (by omega)]
    have := segIndexGo_some rest i (acc + w) (j + 1) c
      (by simpa using hi) (by omega) (by omega)
    rw [this, (by omega : j + 1 + i = j + (i + 1))]

/-- Splitting at the head position of the suffix: `insert_linebreak` on the
row right after prefix `u`. -/
theorem insert_linebreak_append : ∀ (u : Buffer) (l : List Char) (v : Buffer)
    (x : Nat), Buffer.insert_linebreak (u ++ l :: v) x u.length =
      some (u ++ l.take x :: l.drop x :: v)
  | [], l, v, x => rfl
  | w :: u, l, v, x => by
    show (Buffer.insert_linebreak (u ++ l :: v) x u.length).map (w :: ·) = _
    rw [insert_linebreak_append u l v x]
    rfl

theorem getD_append_cons_cons : ∀ (u : Buffer) (a c : List Char) (v : Buffer),
    (u ++ a :: c :: v).getD (u.length + 1) [] = c
  | [], a, c, v => rfl
  | w :: u, a, c, v => by simpa using getD_append_cons_cons u a c v

/-! ### Claim theorems -/

/-- C3: every operation sequence (insert, delete, linebreak) applied to a
freshly constructed buffer leaves at least one line; deleting the only
character of the only line leaves exactly one empty line. -/
theorem buffer_never_empty :
    (∀ (ops : List BufOp) (b1 : Buffer),
      applyOps Buffer.init ops = some b1 → 1 ≤ Buffer.max_y b1) ∧
    Buffer.delete_text [['a']] 0 0 = some [[]] := by
  constructor
  · intro ops b1 h
    have := length_applyOps ops Buffer.init b1 h
    simpa [Buffer.init, Buffer.max_y] using this
  · decide

/-- Witness for C3 at the operation sequence
insert 'a' at (0,0), then delete (0,0). -/
theorem buffer_never_empty_witness :
    applyOps Buffer.init [BufOp.ins 0 0 ['a'], BufOp.del 0 0] = some [[]] ∧
    1 ≤ Buffer.max_y [[]] := by
  have h : applyOps Buffer.init [BufOp.ins 0 0 ['a'], BufOp.del 0 0] =
      some [[]] := by decide
  exact ⟨h, buffer_never_empty.1 _ _ h⟩

/-- C10: no Buffer operation removes or merges lines — `insert_text` away
from the linebreak path and `delete_text` preserve the line count,
`insert_linebreak` adds exactly one line, and the line count never decreases
over any successful operation sequence. -/
theorem line_count_monotone :
    (∀ (b : Buffer) (x y : Nat) (t : List Char) (b1 : Buffer), t ≠ linesep →
      b.insert_text x y t = some b1 → Buffer.max_y b1 = Buffer.max_y b) ∧
    (∀ (b : Buffer) (x y : Nat) (b1 : Buffer),
      b.delete_text x y = some b1 → Buffer.max_y b1 = Buffer.max_y b) ∧
    (∀ (b : Buffer) (x y : Nat) (b1 : Buffer),
      b.insert_linebreak x y = some b1 →
        Buffer.max_y b1 = Buffer.max_y b + 1) ∧
    (∀ (b : Buffer) (ops : List BufOp) (b1 : Buffer),
      applyOps b ops = some b1 → Buffer.max_y b ≤ Buffer.max_y b1) :=
  ⟨fun b x y t b1 ht h => length_insert_text b x y t b1 ht h,
   fun b x y b1 h => Buffer.length_delete_text b x y b1 h,
   fun b x y b1 h => Buffer.length_insert_linebreak b x y b1 h,
   fun b ops b1 h => length_applyOps ops b b1 h⟩

/-- Witness for C10 at one-line buffers. -/
theorem line_count_monotone_witness :
    Buffer.max_y [['a', 'X']] = Buffer.max_y [['a']] ∧
    Buffer.max_y [[]] = Buffer.max_y [['a']] ∧
    Buffer.max_y [['a'], []] = Buffer.max_y [['a']] + 1 ∧
    Buffer.max_y [['a']] ≤ Buffer.max_y [['a'], []] :=
  ⟨line_count_monotone.1 [['a']] 1 0 ['X'] _ (by decide) (by decide),
   line_count_monotone.2.1 [['a']] 0 0 _ (by decide),
   line_count_monotone.2.2.1 [['a']] 1 0 _ (by decide),
   line_count_monotone.2.2.2 [['a']] [BufOp.brk 1 0] _ (by decide)⟩

/-- C2 (amended): an in-range multi-character `insert_text` lands the
characters in reverse order — each character is inserted at the same fixed
column, so the block that appears at the column is `text.reverse`; inserting
"XY" at `(2, 0)` on line "ab" yields "abYX" (not "abXY"), and
`insert_text_at_cursor` still advances the cursor column from 2 to 4. -/
theorem insert_text_reverses :
    (∀ (b : Buffer) (x y : Nat) (t : List Char), y < b.length →
      x ≤ (b.getD y []).length → t ≠ linesep →
      b.insert_text x y t = some (b.set y
        ((b.getD y []).take x ++ t.reverse ++ (b.getD y []).drop x))) ∧
    Buffer.insert_text [['a', 'b']] 2 0 ['X', 'Y'] =
      some [['a', 'b', 'Y', 'X']] ∧
    TextArea.insert_text_at_cursor ⟨[['a', 'b']], 2, 0⟩ ['X', 'Y'] =
      some ⟨[['a', 'b', 'Y', 'X']], 4, 0⟩ :=
  ⟨fun b x y t hy hx ht => Buffer.insert_text_eq b x y t hy hx ht,
   by decide, by decide⟩

/-- Witness for C2's general part at line "hi", column 1, text "XY". -/
theorem insert_text_reverses_witness :
    Buffer.insert_text [['h', 'i']] 1 0 ['X', 'Y'] =
      some [['h', 'Y', 'X', 'i']] := by
  have h := insert_text_reverses.1 [['h', 'i']] 1 0 ['X', 'Y']
    (by decide) (by decide) (by decide)
  rw [h]
  decide

/-- Counterexample to C2 as stated: the multi-character insert is not
left-to-right — "XY" inserted at `(2, 0)` on "ab" does not give "abXY". -/
theorem insert_text_not_left_to_right :
    Buffer.insert_text [['a', 'b']] 2 0 ['X', 'Y'] ≠
      some [['a', 'b', 'X', 'Y']] := by decide

/-- C7 (amended): an in-range insert of `T` splices `T.reverse` (not `T`)
into the serialization at the equivalent character offset, and deleting the
span — one `delete_text` at the same position per character of `T` — restores
the original buffer, hence the original serialization. -/
theorem insert_write_splice_delete_restore (b : Buffer) (x y : Nat)
    (T : List Char) (hy : y < b.length) (hx : x ≤ (b.getD y []).length)
    (ht : T ≠ linesep) :
    ∃ b1, b.insert_text x y T = some b1 ∧
      Buffer.write b1 = (Buffer.write b).take (charOffset b x y) ++
        T.reverse ++ (Buffer.write b).drop (charOffset b x y) ∧
      deleteN T.length b1 x y = some b := by
  refine ⟨_, Buffer.insert_text_eq b x y T hy hx ht, ?_, ?_⟩
  · exact Buffer.write_splice y b x T.reverse hy hx
  · have hgd : (b.set y ((b.getD y []).take x ++ T.reverse ++
        (b.getD y []).drop x)).getD y [] =
        (b.getD y []).take x ++ T.reverse ++ (b.getD y []).drop x :=
      getD_set_self b y _ [] hy
    have hulen : ((b.getD y []).take x).length = x := by
      rw [List.length_take]
      omega
    have hres := deleteN_restore T.reverse
      (b.set y ((b.getD y []).take x ++ T.reverse ++ (b.getD y []).drop x))
      x y ((b.getD y []).take x) ((b.getD y []).drop x)
      (by simpa using hy) hgd hulen
    rw [List.length_reverse] at hres
    rw [List.set_set, List.take_append_drop, set_getD_self b y [] hy] at hres
    exact hres

/-- Witness for C7 at buffer "ab", position `(1, 0)`, text "XY". -/
theorem insert_write_splice_delete_restore_witness :
    Buffer.insert_text [['a', 'b']] 1 0 ['X', 'Y'] =
      some [['a', 'Y', 'X', 'b']] ∧
    Buffer.write [['a', 'Y', 'X', 'b']] =
      (Buffer.write [['a', 'b']]).take 1 ++ ['Y', 'X'] ++
        (Buffer.write [['a', 'b']]).drop 1 ∧
    deleteN 2 [['a', 'Y', 'X', 'b']] 1 0 = some [['a', 'b']] := by
  obtain ⟨b1, h1, h2, h3⟩ := insert_write_splice_delete_restore
    [['a', 'b']] 1 0 ['X', 'Y'] (by decide) (by decide) (by decide)
  have h0 : Buffer.insert_text [['a', 'b']] 1 0 ['X', 'Y'] =
      some [['a', 'Y', 'X', 'b']] := by decide
  rw [h0] at h1
  obtain rfl := Option.some_inj.mp h1
  exact ⟨h0, h2, h3⟩

/-- Counterexample to C7 as stated: serializing after inserting "XY" at
`(2, 0)` on "ab" is not the original serialization with "XY" spliced in at
offset 2 (it is "abYX", the reversed splice). -/
theorem insert_then_write_not_plain_splice :
    ¬ ((Buffer.insert_text [['a', 'b']] 2 0 ['X', 'Y']).map Buffer.write =
      some ((Buffer.write [['a', 'b']]).take 2 ++ ['X', 'Y'] ++
        (Buffer.write [['a', 'b']]).drop 2)) := by decide

/-- C9: inserting text that contains the separator but is not exactly the
separator puts every character — separator included — into the single
addressed line, creates no new line, and makes the separator-split count of
the serialization exceed the line count. -/
theorem insert_embedded_separator_stays_single_line (b : Buffer) (x y : Nat)
    (T : List Char) (hy : y < b.length) (hx : x ≤ (b.getD y []).length)
    (ht : T ≠ linesep) (hmem : '\n' ∈ T) :
    ∃ b1, b.insert_text x y T = some b1 ∧
      Buffer.max_y b1 = Buffer.max_y b ∧
      b1.getD y [] =
        (b.getD y []).take x ++ T.reverse ++ (b.getD y []).drop x ∧
      (∀ j, j ≠ y → b1.getD j [] = b.getD j []) ∧
      Buffer.max_y b1 < (splitNl (Buffer.write b1)).length := by
  refine ⟨_, Buffer.insert_text_eq b x y T hy hx ht, ?_, ?_, ?_, ?_⟩
  · simp [Buffer.max_y]
  · exact getD_set_self b y _ [] hy
  · intro j hj
    exact getD_set_ne b y j _ [] (fun hyj => hj hyj.symm)
  · set line1 := (b.getD y []).take x ++ T.reverse ++ (b.getD y []).drop x
      with hline1
    have hlen : (b.set y line1).length = b.length := by simp
    have hne : b.set y line1 ≠ [] := by
      intro hh
      rw [hh] at hlen
      simp at hlen
      omega
    have hyb : y < (b.set y line1).length := by omega
    have hmemline : line1 ∈ b.set y line1 := by
      have h0 : (b.set y line1).getD y [] ∈ b.set y line1 := by
        rw [List.getD_eq_getElem (b.set y line1) [] hyb]
        exact List.getElem_mem hyb
      rw [getD_set_self b y line1 [] hy] at h0
      exact h0
    have hcount : 1 ≤ line1.count '\n' := by
      have h1 : 0 < T.reverse.count '\n' :=
        List.count_pos_iff.mpr (by simpa using hmem)
      rw [hline1]
      simp only [List.count_append]
      omega
    have hsum : line1.count '\n' ≤
        ((b.set y line1).map (fun l => l.count '\n')).sum :=
      List.single_le_sum (fun i _ => Nat.zero_le i) _
        (List.mem_map_of_mem _ hmemline)
    rw [length_splitNl, Buffer.count_write _ hne]
    simp only [Buffer.max_y]
    omega

/-- Witness for C9 at buffer "a", position `(1, 0)`, text newline-then-'Z'. -/
theorem insert_embedded_separator_witness :
    Buffer.insert_text [['a']] 1 0 ['\n', 'Z'] = some [['a', 'Z', '\n']] ∧
    Buffer.max_y [['a', 'Z', '\n']] = Buffer.max_y [['a']] ∧
    Buffer.max_y [['a', 'Z', '\n']] <
      (splitNl (Buffer.write [['a', 'Z', '\n']])).length := by
  obtain ⟨b1, h1, h2, h3, h4, h5⟩ := insert_embedded_separator_stays_single_line
    [['a']] 1 0 ['\n', 'Z'] (by decide) (by decide) (by decide) (by decide)
  have h0 : Buffer.insert_text [['a']] 1 0 ['\n', 'Z'] =
      some [['a', 'Z', '\n']] := by decide
  rw [h0] at h1
  obtain rfl := Option.some_inj.mp h1
  exact ⟨h0, h2, h5⟩

/-- C5: the cell/segment translator returns the index of the run whose
cumulative-width interval contains the target cell, `none` at or beyond the
total width; on widths `[2, 3, 1]` and cell 4 it returns the second run. -/
theorem segment_translator_correct :
    (∀ (widths : List Nat) (c i : Nat), i < widths.length →
      (widths.take i).sum ≤ c → c < (widths.take (i + 1)).sum →
      get_segment_index_from_cell_index c widths = some i) ∧
    (∀ (widths : List Nat) (c : Nat), widths.sum ≤ c →
      get_segment_index_from_cell_index c widths = none) ∧
    get_segment_index_from_cell_index 4 [2, 3, 1] = some 1 := by
  refine ⟨?_, ?_, by decide⟩
  · intro ws c i hi h1 h2
    have h := segIndexGo_some ws i 0 0 c hi (by omega) (by omega)
    simpa [get_segment_index_from_cell_index] using h
  · intro ws c h
    exact segIndexGo_none ws 0 0 c (by omega)

/-- Witness for C5 at widths `[2, 3, 1]`, cell 4, run 1, and cell 6. -/
theorem segment_translator_correct_witness :
    get_segment_index_from_cell_index 4 [2, 3, 1] = some 1 ∧
    get_segment_index_from_cell_index 6 [2, 3, 1] = none :=
  ⟨segment_translator_correct.1 [2, 3, 1] 4 1 (by decide) (by decide)
    (by decide),
   segment_translator_correct.2.1 [2, 3, 1] 6 (by decide)⟩

/-- C6 (amended): `get_line_length` returns the line's length for rows in
`[0, lineCount)` and `none` for rows at or past `lineCount` and for rows
below `-lineCount`; a negative row in `[-lineCount, -1]` addresses a line
from the end (Python negative indexing) and returns that line's length,
not `none`. -/
theorem get_line_length_amended (b : Buffer) (y : Int) :
    (0 ≤ y → y < (Buffer.max_y b : Int) →
      Buffer.get_line_length b y = some ((b.getD y.toNat []).length)) ∧
    ((Buffer.max_y b : Int) ≤ y → Buffer.get_line_length b y = none) ∧
    (y < -(Buffer.max_y b : Int) → Buffer.get_line_length b y = none) ∧
    (y < 0 → -(Buffer.max_y b : Int) ≤ y →
      Buffer.get_line_length b y =
        some ((b.getD ((Buffer.max_y b : Int) + y).toNat []).length)) := by
  unfold Buffer.get_line_length Buffer.max_y
  refine ⟨fun h1 h2 => ?_, fun h1 => ?_, fun h1 => ?_, fun h1 h2 => ?_⟩
  · rw [if_pos h1, if_pos h2]
  · rw [if_pos (by omega), if_neg (by omega)]
  · rw [if_neg (by omega), if_neg (by omega)]
  · rw [if_neg (by omega), if_pos (by omega)]

/-- Witness for C6 on the two-line buffer ["a", "bc"] at rows 1, 5, -3, -2. -/
theorem get_line_length_amended_witness :
    Buffer.get_line_length [['a'], ['b', 'c']] 1 = some 2 ∧
    Buffer.get_line_length [['a'], ['b', 'c']] 5 = none ∧
    Buffer.get_line_length [['a'], ['b', 'c']] (-3) = none ∧
    Buffer.get_line_length [['a'], ['b', 'c']] (-2) = some 1 := by
  refine ⟨?_, ?_, ?_, ?_⟩
  · have h := (get_line_length_amended [['a'], ['b', 'c']] 1).1
      (by decide) (by decide)
    rw [h]
    decide
  · exact (get_line_length_amended [['a'], ['b', 'c']] 5).2.1 (by decide)
  · exact (get_line_length_amended [['a'], ['b', 'c']] (-3)).2.2.1 (by decide)
  · have h := (get_line_length_amended [['a'], ['b', 'c']] (-2)).2.2.2
      (by decide) (by decide)
    rw [h]
    decide

/-- Counterexample to C6 as stated: row `-1` is outside `[0, lineCount)` yet
`get_line_length` returns a length (Python indexes from the end), not
`none`. -/
theorem get_line_length_negative_row_counterexample :
    Buffer.get_line_length [['a']] (-1) = some 1 ∧
    Buffer.get_line_length [['a']] (-1) ≠ none := by
  constructor <;> decide

/-- C1 evidence: the horizontal clamp never fires on negative target
columns — the guard in the source tests the constant 0 (`_is_negative(0)`),
which is always false — so on a one-line buffer "a" with the cursor on row 0
a target column of -1 is returned unchanged instead of being clamped to 0;
the high side does clamp (5 clamps to the line length 1). -/
theorem validate_cursor_x_keeps_negative_column :
    TextArea.validate_cursor_x ⟨[['a']], 0, 0⟩ (-1) = -1 ∧
    TextArea.validate_cursor_x ⟨[['a']], 0, 0⟩ (-1) ≠ 0 ∧
    TextArea.validate_cursor_x ⟨[['a']], 0, 0⟩ 5 = 1 :=
  ⟨by decide, by decide, by decide⟩

/-- C8: clamping an already-valid cursor position is a no-op —
`validate_cursor_y` is the identity on rows in `[0, lineCount - 1]`, and
`validate_cursor_x` is the identity on columns in
`[0, lineLength(cursor_y)]` when the stored row is valid. -/
theorem validate_noop_on_valid (ta : TextArea) (y x : Int) :
    (0 ≤ y → y ≤ (Buffer.max_y ta.buffer : Int) - 1 →
      ta.validate_cursor_y y = y) ∧
    (0 ≤ ta.cursor_y → ta.cursor_y < (Buffer.max_y ta.buffer : Int) →
      0 ≤ x → x ≤ ((ta.buffer.getD ta.cursor_y.toNat []).length : Int) →
      ta.validate_cursor_x x = x) := by
  constructor
  · intro h1 h2
    unfold TextArea.validate_cursor_y
    simp only [is_negative, decide_eq_true_eq, Buffer.max_y] at h2 ⊢
    split_ifs <;> omega
  · intro h1 h2 h3 h4
    have hlen : ta.buffer.get_line_length ta.cursor_y =
        some ((ta.buffer.getD ta.cursor_y.toNat []).length) := by
      unfold Buffer.get_line_length
      rw [if_pos h1, if_pos (by simpa [Buffer.max_y] using h2)]
    simp only [TextArea.validate_cursor_x, hlen, is_negative,
      decide_eq_true_eq]
    split_ifs <;> omega

/-- Witness for C8 on the buffer ["ab", "c"]: row 1 and column 2 (at the
end of row 0) are left unchanged. -/
theorem validate_noop_on_valid_witness :
    TextArea.validate_cursor_y ⟨[['a', 'b'], ['c']], 0, 0⟩ 1 = 1 ∧
    TextArea.validate_cursor_x ⟨[['a', 'b'], ['c']], 0, 0⟩ 2 = 2 :=
  ⟨(validate_noop_on_valid ⟨[['a', 'b'], ['c']], 0, 0⟩ 1 0).1
     (by decide) (by decide),
   (validate_noop_on_valid ⟨[['a', 'b'], ['c']], 0, 0⟩ 0 2).2
     (by decide) (by decide) (by decide) (by decide)⟩

/-- C4: with the line "abcdef" at the cursor row and cursor column 3, the
compound insert-linebreak action (buffer split, then cursor down one row,
then column reset to 0, then rendering-state regeneration) splits that row
into the lines "abc" and "def" and leaves the cursor at
`(0, original_row + 1)`. -/
theorem action_insert_linebreak_splits_and_homes_cursor (ta : TextArea)
    (u v : Buffer)
    (hbuf : ta.buffer = u ++ ['a', 'b', 'c', 'd', 'e', 'f'] :: v)
    (hcy : ta.cursor_y = (u.length : Int)) (hcx : ta.cursor_x = 3) :
    ta.action_insert_linebreak_at_cursor =
      some ⟨u ++ ['a', 'b', 'c'] :: ['d', 'e', 'f'] :: v, 0,
        (u.length : Int) + 1⟩ := by
  obtain ⟨b0, cx, cy⟩ := ta
  replace hbuf : b0 = u ++ ['a', 'b', 'c', 'd', 'e', 'f'] :: v := hbuf
  replace hcy : cy = (u.length : Int) := hcy
  replace hcx : cx = 3 := hcx
  subst hbuf
  subst hcy
  subst hcx
  have h1 : (['a', 'b', 'c', 'd', 'e', 'f'] : List Char).take
      ((3 : Int)).toNat = ['a', 'b', 'c'] := rfl
  have h2 : (['a', 'b', 'c', 'd', 'e', 'f'] : List Char).drop
      ((3 : Int)).toNat = ['d', 'e', 'f'] := rfl
  have hvy : TextArea.validate_cursor_y
      ⟨u ++ ['a', 'b', 'c'] :: ['d', 'e', 'f'] :: v, 3, (u.length : Int)⟩
      ((u.length : Int) + 1) = (u.length : Int) + 1 := by
    unfold TextArea.validate_cursor_y
    simp only [is_negative, decide_eq_true_eq, Buffer.max_y,
      List.length_append, List.length_cons]
    split_ifs <;> omega
  have hgll : Buffer.get_line_length
      (u ++ ['a', 'b', 'c'] :: ['d', 'e', 'f'] :: v)
      ((u.length : Int) + 1) = some 3 := by
    unfold Buffer.get_line_length
    rw [if_pos (by omega), if_pos (by simp)]
    rw [(by omega : ((u.length : Int) + 1).toNat = u.length + 1),
      getD_append_cons_cons]
    decide
  have hvx : TextArea.validate_cursor_x
      ⟨u ++ ['a', 'b', 'c'] :: ['d', 'e', 'f'] :: v, 3,
        (u.length : Int) + 1⟩ 0 = 0 := by
    simp only [TextArea.validate_cursor_x, hgll]
    decide
  simp only [TextArea.action_insert_linebreak_at_cursor, Int.toNat_ofNat,
    Int.toNat_natCast]
  rw [insert_linebreak_append, h1, h2]
  simp only [Option.map_some, Option.map_some', Option.some_inj,
    TextArea.action_cursor_down, TextArea.set_cursor_y, TextArea.set_cursor_x]
  rw [hvy, hvx]

/-- Witness for C4 on the one-line buffer "abcdef" with the cursor at
`(3, 0)`. -/
theorem action_insert_linebreak_splits_witness :
    TextArea.action_insert_linebreak_at_cursor
      ⟨[['a', 'b', 'c', 'd', 'e', 'f']], 3, 0⟩ =
      some ⟨[['a', 'b', 'c'], ['d', 'e', 'f']], 0, 1⟩ := by
  have h := action_insert_linebreak_splits_and_homes_cursor
    ⟨[['a', 'b', 'c', 'd', 'e', 'f']], 3, 0⟩ [] [] rfl (by decide) rfl
  simpa using h

end TextualTextarea
